import Mathlib

/-!
Verification of `qiskit/optimization/converters/linear_equality_to_penalty.py`.

The converter class `LinearEqualityToPenalty` turns a quadratic program whose
constraints are all linear equalities into an unconstrained quadratic program
by adding, for every constraint `row = rhs`, the squared penalty term
`sign * penalty * (rhs - row)^2` to the objective.

Numbers are modelled as rationals; Python dicts become association lists with
get-or-default (`dget`) and insert-or-replace (`dset`) operations, iterated in
insertion order exactly as `dict.items()` does.
-/

set_option linter.unusedVariables false

/-- Kinds of decision variables (`Variable.Type`: CONTINUOUS, BINARY, INTEGER). -/
inductive VarType
  | continuous
  | binary
  | integer
  deriving DecidableEq, Repr

/-- A decision variable: name, kind and bounds. -/
structure Variable where
  name : String
  vartype : VarType
  lowerbound : ℚ
  upperbound : ℚ
  deriving DecidableEq, Repr

/-- Objective sense (`QuadraticObjective.Sense`). -/
inductive ObjSense
  | minimize
  | maximize
  deriving DecidableEq, Repr

/-- Modelled from the spec: the numeric `.value` of the sense enumeration in
`problems/quadratic_objective.py` (not under `src/`); the spec states the sign
factor is +1 for Minimize and -1 for Maximize. -/
def ObjSense.value : ObjSense → ℚ
  | ObjSense.minimize => 1
  | ObjSense.maximize => -1

/-- Sparse linear coefficient map, keyed by variable index
(the `to_dict()` form of a `LinearExpression`), in insertion order. -/
abbrev LinMap := List (Nat × ℚ)

/-- Sparse quadratic coefficient map keyed by ordered index pairs
(the `to_dict()` form of a `QuadraticExpression`). -/
abbrev QuadMap := List ((Nat × Nat) × ℚ)

/-- Dict lookup with default 0, as `d.get(k, 0.0)`. -/
def dget {α : Type} [DecidableEq α] : List (α × ℚ) → α → ℚ
  | [], _ => 0
  | (k', v) :: rest, k => if k' = k then v else dget rest k

/-- Dict assignment `d[k] = v`: replace the entry in place, or append. -/
def dset {α : Type} [DecidableEq α] : List (α × ℚ) → α → ℚ → List (α × ℚ)
  | [], k, v => [(k, v)]
  | (k', v') :: rest, k, v =>
      if k' = k then (k, v) :: rest else (k', v') :: dset rest k v

/-- The keys of a dict, in order. -/
def dkeys {α : Type} (m : List (α × ℚ)) : List α := m.map Prod.fst

/-- A dict is well formed when its keys are pairwise distinct. -/
abbrev KeysNodup {α : Type} (m : List (α × ℚ)) : Prop := (m.map Prod.fst).Nodup

/-- Value of a sparse map at a weighting of its keys: the sum of
`coefficient * weight key` over all entries. -/
def evalMap {α : Type} (m : List (α × ℚ)) (w : α → ℚ) : ℚ :=
  (m.map (fun p => p.2 * w p.1)).sum

/-- Weight of an ordered index pair under an assignment. -/
def pairWeight (a : Nat → ℚ) : Nat × Nat → ℚ := fun jk => a jk.1 * a jk.2

/-- Objective of a quadratic program: sense, constant offset, sparse linear
and quadratic coefficient maps. -/
structure QuadraticObjective where
  constant : ℚ
  linear : LinMap
  quadratic : QuadMap
  sense : ObjSense
  deriving DecidableEq, Repr

/-- Value of an objective at an assignment of the variables. -/
def evalObj (o : QuadraticObjective) (a : Nat → ℚ) : ℚ :=
  o.constant + evalMap o.linear a + evalMap o.quadratic (pairWeight a)

/-- Constraint sense (`Constraint.Sense`: EQ, LE, GE). -/
inductive ConstraintSense
  | eq
  | le
  | ge
  deriving DecidableEq, Repr

/-- A linear constraint: row (sparse map), sense and right-hand side. -/
structure LinearConstraint where
  name : String
  linear : LinMap
  sense : ConstraintSense
  rhs : ℚ
  deriving DecidableEq, Repr

/-- Whether an assignment satisfies a linear constraint. -/
def LinearConstraint.satisfiedB (c : LinearConstraint) (a : Nat → ℚ) : Bool :=
  match c.sense with
  | ConstraintSense.eq => decide (evalMap c.linear a = c.rhs)
  | ConstraintSense.le => decide (evalMap c.linear a ≤ c.rhs)
  | ConstraintSense.ge => decide (c.rhs ≤ evalMap c.linear a)

/-- Problem status (`QuadraticProgramStatus`: VALID, INFEASIBLE). -/
inductive QuadraticProgramStatus
  | valid
  | infeasible
  deriving DecidableEq, Repr

/-- A quadratic program: name, ordered variables, objective, ordered linear
constraints, and a status set by the substitution logic. -/
structure QuadraticProgram where
  name : String
  vars : List Variable
  objective : QuadraticObjective
  linear_constraints : List LinearConstraint
  status : QuadraticProgramStatus
  deriving DecidableEq, Repr

/-- Result status (`OptimizationResultStatus`: SUCCESS, FAILURE, INFEASIBLE). -/
inductive OptimizationResultStatus
  | success
  | failure
  | infeasible
  deriving DecidableEq, Repr

/-- An optimization result: values (one per variable, in the problem's
variable order), objective value, and status. -/
structure OptimizationResult where
  x : List ℚ
  fval : ℚ
  status : OptimizationResultStatus
  deriving DecidableEq, Repr

/-- Instance state of a `LinearEqualityToPenalty` converter: the retained
source snapshot `_src`, the configured penalty `_penalty` and the configured
destination name `_dst_name`. -/
structure EncState where
  src : Option QuadraticProgram
  penalty : Option ℚ
  dstName : Option String
  deriving DecidableEq, Repr

/-- Modelled from the spec: the variable factories `continuous_var`,
`binary_var`, `integer_var` of the problem container (`quadratic_program.py`,
not under `src/`). `binary_var` takes only a name; the spec fixes binary
bounds to the implicit [0, 1]. This is the per-variable translation performed
by the loop at lines 77-85 of `encode`. -/
def convertVariable (x : Variable) : Variable :=
  match x.vartype with
  | VarType.continuous => { name := x.name, vartype := VarType.continuous,
                            lowerbound := x.lowerbound, upperbound := x.upperbound }
  | VarType.binary => { name := x.name, vartype := VarType.binary,
                        lowerbound := 0, upperbound := 1 }
  | VarType.integer => { name := x.name, vartype := VarType.integer,
                         lowerbound := x.lowerbound, upperbound := x.upperbound }

/-- The list of constraint coefficients inspected by `_auto_define_penalty`:
every constraint right-hand side followed by that constraint's row
coefficients, in constraint order (lines 146-149). -/
def constraintTerms (src : QuadraticProgram) : List ℚ :=
  src.linear_constraints.foldl
    (fun acc c => (acc ++ [c.rhs]) ++ c.linear.map Prod.snd) []

/-- `LinearEqualityToPenalty._auto_define_penalty` (lines 133-168): the
default 1e5 when some constraint coefficient is non-integral (`float` with
`is_integer()` false, here: denominator not 1), otherwise the exact sum (the
code uses `math.fsum`) of 1.0 and the absolute values of all linear and
quadratic objective coefficients. -/
def autoDefinePenalty (src : QuadraticProgram) : ℚ :=
  let defaultPenalty : ℚ := 100000
  let terms := constraintTerms src
  if terms.any (fun t => t.den != 1) then
    defaultPenalty
  else
    let penalties := [(1 : ℚ)]
      ++ src.objective.linear.map (fun p => |p.2|)
      ++ src.objective.quadratic.map (fun p => |p.2|)
    penalties.sum

/-- The penalty factor used by an `encode` call: the configured one if set,
otherwise the automatically computed one (lines 64-68). -/
def penaltyUsed (st : EncState) (src : QuadraticProgram) : ℚ :=
  match st.penalty with
  | none => autoDefinePenalty src
  | some p => p

/-- The linear-part loop of one constraint (lines 109-112):
`linear[j] = linear.get(j, 0.0) + sense * penalty * -2 * coef * constant`
for each entry `(j, coef)` of the row, in order. -/
def addLinearPenalty (sense penalty constant : ℚ) (row : LinMap)
    (linear : LinMap) : LinMap :=
  row.foldl
    (fun lin jc =>
      dset lin jc.1 (dget lin jc.1 + sense * penalty * (-2) * jc.2 * constant))
    linear

/-- The inner quadratic loop for a fixed row entry `(j, coef1)`
(lines 116-124): `quadratic[(j, k)] += sense * penalty * coef1 * coef2`
for each entry `(k, coef2)` of the row. -/
def addQuadOne (sense penalty : ℚ) (j : Nat) (coef1 : ℚ) (row : LinMap)
    (quadratic : QuadMap) : QuadMap :=
  row.foldl
    (fun q kc =>
      dset q (j, kc.1) (dget q (j, kc.1) + sense * penalty * coef1 * kc.2))
    quadratic

/-- The quadratic double loop of one constraint (lines 115-124). -/
def addQuadPenalty (sense penalty : ℚ) (row : LinMap)
    (quadratic : QuadMap) : QuadMap :=
  row.foldl (fun q jc => addQuadOne sense penalty jc.1 jc.2 row q) quadratic

/-- Processing of one equality constraint inside the loop of `encode`
(lines 102-124): accumulate its penalty expansion into the running
offset / linear map / quadratic map. -/
def penalizeConstraint (sense penalty : ℚ)
    (acc : ℚ × LinMap × QuadMap) (c : LinearConstraint) : ℚ × LinMap × QuadMap :=
  let constant := c.rhs
  let row := c.linear
  let offset := acc.1 + sense * penalty * constant ^ 2
  let linear := addLinearPenalty sense penalty constant row acc.2.1
  let quadratic := addQuadPenalty sense penalty row acc.2.2
  (offset, linear, quadratic)

/-- The constraint loop of `encode` (lines 94-124): for each constraint in
order, fail if its sense is not EQ, otherwise accumulate its penalty
expansion. -/
def encodeAccum (sense penalty : ℚ) :
    List LinearConstraint → ℚ × LinMap × QuadMap → Except String (ℚ × LinMap × QuadMap)
  | [], acc => Except.ok acc
  | c :: rest, acc =>
      if c.sense ≠ ConstraintSense.eq then
        Except.error
          "An inequality constraint exists. The method supports only equality constraints."
      else
        encodeAccum sense penalty rest (penalizeConstraint sense penalty acc c)

/-- `LinearEqualityToPenalty.encode` (lines 47-131). The deep copy of the
argument is the argument's value; the updated instance state is returned next
to the converted problem (or the error). Note the state update `_src := op`
happens first (line 61), before any validation, and the configured `_penalty`
is left untouched even when the penalty is auto-computed. -/
def LinearEqualityToPenalty.encode (st : EncState) (op : QuadraticProgram) :
    EncState × Except String QuadraticProgram :=
  let src := op
  let st' : EncState := { st with src := some src }
  let penalty := penaltyUsed st src
  let dstName := match st.dstName with
    | none => src.name
    | some n => n
  let dstVars := src.vars.map convertVariable
  let offset := src.objective.constant
  let linear := src.objective.linear
  let quadratic := src.objective.quadratic
  let sense := src.objective.sense.value
  match encodeAccum sense penalty src.linear_constraints (offset, linear, quadratic) with
  | Except.error e => (st', Except.error e)
  | Except.ok acc =>
      (st', Except.ok
        { name := dstName,
          vars := dstVars,
          objective := { constant := acc.1, linear := acc.2.1,
                         quadratic := acc.2.2, sense := src.objective.sense },
          linear_constraints := [],
          status := QuadraticProgramStatus.valid })

/-- Modelled from the spec: the external substitution capability
`QuadraticProgram.substitute_variables` (not under `src/`). Per the spec's
contract, on a complete assignment it yields a problem whose objective
constant is the original objective evaluated at the assignment and whose
status is Valid exactly when every original constraint is satisfied. -/
def substituteVariables (p : QuadraticProgram) (a : Nat → ℚ) : QuadraticProgram :=
  { name := p.name,
    vars := [],
    objective := { constant := evalObj p.objective a, linear := [],
                   quadratic := [], sense := p.objective.sense },
    linear_constraints := [],
    status := if p.linear_constraints.all (fun c => c.satisfiedB a)
              then QuadraticProgramStatus.valid
              else QuadraticProgramStatus.infeasible }

/-- Body of `LinearEqualityToPenalty.decode` (lines 182-206), against a given
retained source problem. The substitution dictionary maps the i-th variable
to the i-th value of the result (names are unique, so keying by position is
equivalent to keying by name). -/
def LinearEqualityToPenalty.decodeAgainst (src : QuadraticProgram)
    (result : OptimizationResult) : Except String OptimizationResult :=
  if result.x.length ≠ src.vars.length then
    Except.error
      "The number of variables in the passed result differs from that of the original problem."
  else
    let a : Nat → ℚ := fun i => result.x.getD i 0
    let substituted := substituteVariables src a
    Except.ok
      { x := result.x,
        fval := substituted.objective.constant,
        status := if substituted.status = QuadraticProgramStatus.valid
                  then OptimizationResultStatus.success
                  else OptimizationResultStatus.infeasible }

/-- `LinearEqualityToPenalty.decode` (lines 170-206): reads the retained
source snapshot `_src` from the instance state. -/
def LinearEqualityToPenalty.decode (st : EncState)
    (result : OptimizationResult) : Except String OptimizationResult :=
  match st.src with
  | none => Except.error "no retained source problem"
  | some src => LinearEqualityToPenalty.decodeAgainst src result

/-- The running accumulator of `encode` (offset, linear map, quadratic map)
evaluated at an assignment, as an objective value. -/
def evalTriple (acc : ℚ × LinMap × QuadMap) (a : Nat → ℚ) : ℚ :=
  acc.1 + evalMap acc.2.1 a + evalMap acc.2.2 (pairWeight a)

/-- Fixture: a binary variable `x0`. -/
def exX0 : Variable :=
  { name := "x0", vartype := VarType.binary, lowerbound := 0, upperbound := 1 }

/-- Fixture: the problem of the spec's concrete scenario — minimize `x0`
subject to `x0 = 1`. -/
def exP : QuadraticProgram :=
  { name := "p",
    vars := [exX0],
    objective := { constant := 0, linear := [(0, 1)], quadratic := [],
                   sense := ObjSense.minimize },
    linear_constraints :=
      [{ name := "c0", linear := [(0, 1)], sense := ConstraintSense.eq, rhs := 1 }],
    status := QuadraticProgramStatus.valid }

/-- Fixture: like `exP` but with the fractional right-hand side `1/2`. -/
def exPfrac : QuadraticProgram :=
  { name := "pf",
    vars := [exX0],
    objective := { constant := 0, linear := [(0, 1)], quadratic := [],
                   sense := ObjSense.minimize },
    linear_constraints :=
      [{ name := "c0", linear := [(0, 1)], sense := ConstraintSense.eq, rhs := 1 / 2 }],
    status := QuadraticProgramStatus.valid }

/-- Fixture: converter state configured with the explicit penalty 2. -/
def exSt : EncState := { src := none, penalty := some 2, dstName := none }

/-- Fixture: converter state with no configured penalty. -/
def exStAuto : EncState := { src := none, penalty := none, dstName := none }

/-- Fixture: the problem `encode exSt exP` produces, per the spec's concrete
scenario: minimize `2 - 3 x0 + 2 x0^2`, no constraints. -/
def exDst : QuadraticProgram :=
  { name := "p",
    vars := [exX0],
    objective := { constant := 2, linear := [(0, -3)], quadratic := [((0, 0), 2)],
                   sense := ObjSense.minimize },
    linear_constraints := [],
    status := QuadraticProgramStatus.valid }

/-- Fixture: a result with one value, matching `exP`'s variable count. -/
def exResult : OptimizationResult :=
  { x := [1], fval := 0, status := OptimizationResultStatus.success }

/-! ### Dictionary lemmas -/

theorem dget_dset_self {α : Type} [DecidableEq α] (m : List (α × ℚ)) (k : α) (v : ℚ) :
    dget (dset m k v) k = v := by
  induction m with
  | nil => simp [dget, dset]
  | cons p rest ih =>
    obtain ⟨k', v'⟩ := p
    by_cases h : k' = k
    · simp [dget, dset, h]
    · simp [dget, dset, h, ih]

theorem dget_dset_ne {α : Type} [DecidableEq α] (m : List (α × ℚ)) (k k' : α) (v : ℚ)
    (h : k ≠ k') : dget (dset m k v) k' = dget m k' := by
  induction m with
  | nil => simp [dget, dset, h]
  | cons p rest ih =>
    obtain ⟨k₀, v₀⟩ := p
    by_cases h0 : k₀ = k
    · subst h0
      simp [dget, dset, h]
    · simp [dget, dset, h0, ih]

theorem dget_eq_zero_of_not_mem {α : Type} [DecidableEq α] (m : List (α × ℚ)) (k : α)
    (h : k ∉ m.map Prod.fst) : dget m k = 0 := by
  induction m with
  | nil => simp [dget]
  | cons p rest ih =>
    obtain ⟨k₀, v₀⟩ := p
    simp only [List.map_cons, List.mem_cons] at h
    push_neg at h
    rw [dget, if_neg (fun hh => h.1 hh.symm)]
    exact ih h.2

/-! ### Evaluation lemmas -/

theorem evalMap_nil {α : Type} (w : α → ℚ) : evalMap ([] : List (α × ℚ)) w = 0 := rfl

theorem evalMap_cons {α : Type} (p : α × ℚ) (m : List (α × ℚ)) (w : α → ℚ) :
    evalMap (p :: m) w = p.2 * w p.1 + evalMap m w := by
  simp [evalMap]

theorem evalMap_dset_add {α : Type} [DecidableEq α] (m : List (α × ℚ)) (k : α) (d : ℚ)
    (w : α → ℚ) :
    evalMap (dset m k (dget m k + d)) w = evalMap m w + d * w k := by
  induction m with
  | nil =>
    simp [evalMap, dget, dset]
  | cons p rest ih =>
    obtain ⟨k₀, v₀⟩ := p
    by_cases h : k₀ = k
    · subst h
      simp only [dget, dset, eq_self_iff_true, if_true, evalMap_cons]
      ring
    · simp only [dget, dset, if_neg h, evalMap_cons, ih]
      ring

theorem evalMap_addLinearPenalty (s p C : ℚ) (a : Nat → ℚ) :
    ∀ (row lin : LinMap), evalMap (addLinearPenalty s p C row lin) a =
      evalMap lin a + s * p * (-2) * C * evalMap row a := by
  intro row
  induction row with
  | nil =>
    intro lin
    simp [addLinearPenalty, evalMap_nil]
  | cons jc rest ih =>
    intro lin
    simp only [addLinearPenalty, List.foldl_cons] at ih ⊢
    rw [ih, evalMap_dset_add, evalMap_cons]
    ring

theorem evalMap_addQuadOne (s p : ℚ) (j : Nat) (c1 : ℚ) (a : Nat → ℚ) :
    ∀ (row : LinMap) (q : QuadMap),
      evalMap (addQuadOne s p j c1 row q) (pairWeight a) =
      evalMap q (pairWeight a) + s * p * c1 * a j * evalMap row a := by
  intro row
  induction row with
  | nil =>
    intro q
    simp [addQuadOne, evalMap_nil]
  | cons kc rest ih =>
    intro q
    simp only [addQuadOne, List.foldl_cons] at ih ⊢
    rw [ih, evalMap_dset_add, evalMap_cons]
    simp only [pairWeight]
    ring

theorem evalMap_addQuadFold (s p : ℚ) (row : LinMap) (a : Nat → ℚ) :
    ∀ (outer : LinMap) (q : QuadMap),
      evalMap (outer.foldl (fun q jc => addQuadOne s p jc.1 jc.2 row q) q) (pairWeight a) =
      evalMap q (pairWeight a) + s * p * evalMap outer a * evalMap row a := by
  intro outer
  induction outer with
  | nil =>
    intro q
    simp [evalMap_nil]
  | cons jc rest ih =>
    intro q
    simp only [List.foldl_cons] at ih ⊢
    rw [ih, evalMap_addQuadOne, evalMap_cons]
    ring

theorem evalMap_addQuadPenalty (s p : ℚ) (row : LinMap) (q : QuadMap) (a : Nat → ℚ) :
    evalMap (addQuadPenalty s p row q) (pairWeight a) =
      evalMap q (pairWeight a) + s * p * evalMap row a * evalMap row a := by
  simp only [addQuadPenalty]
  rw [evalMap_addQuadFold]

theorem evalTriple_penalizeConstraint (s p : ℚ) (acc : ℚ × LinMap × QuadMap)
    (c : LinearConstraint) (a : Nat → ℚ) :
    evalTriple (penalizeConstraint s p acc c) a =
      evalTriple acc a + s * p * (c.rhs - evalMap c.linear a) ^ 2 := by
  obtain ⟨o, lin, q⟩ := acc
  simp only [penalizeConstraint, evalTriple]
  rw [evalMap_addLinearPenalty, evalMap_addQuadPenalty]
  ring

/-! ### Constraint-loop lemmas -/

theorem encodeAccum_error_iff (s p : ℚ) :
    ∀ (cs : List LinearConstraint) (acc : ℚ × LinMap × QuadMap),
      (∃ e, encodeAccum s p cs acc = Except.error e) ↔
        ∃ c ∈ cs, c.sense ≠ ConstraintSense.eq := by
  intro cs
  induction cs with
  | nil =>
    intro acc
    simp [encodeAccum]
  | cons c rest ih =>
    intro acc
    by_cases hs : c.sense = ConstraintSense.eq
    · simp [encodeAccum, hs, ih]
    · simp [encodeAccum, hs]

theorem encodeAccum_ok_of_all_eq (s p : ℚ) :
    ∀ (cs : List LinearConstraint) (acc : ℚ × LinMap × QuadMap),
      (∀ c ∈ cs, c.sense = ConstraintSense.eq) →
      encodeAccum s p cs acc = Except.ok (cs.foldl (penalizeConstraint s p) acc) := by
  intro cs
  induction cs with
  | nil =>
    intro acc _
    simp [encodeAccum]
  | cons c rest ih =>
    intro acc h
    have hc : c.sense = ConstraintSense.eq := h c (List.mem_cons_self c rest)
    rw [List.foldl_cons]
    simp only [encodeAccum, hc]
    rw [if_neg (by simp)]
    exact ih _ (fun c' hc' => h c' (List.mem_cons_of_mem c hc'))

theorem encodeAccum_feasible_eval (s p : ℚ) (a : Nat → ℚ) :
    ∀ (cs : List LinearConstraint) (acc out : ℚ × LinMap × QuadMap),
      (∀ c ∈ cs, evalMap c.linear a = c.rhs) →
      encodeAccum s p cs acc = Except.ok out →
      evalTriple out a = evalTriple acc a := by
  intro cs
  induction cs with
  | nil =>
    intro acc out _ h
    simp only [encodeAccum] at h
    injection h with h
    rw [← h]
  | cons c rest ih =>
    intro acc out hfeas h
    by_cases hs : c.sense = ConstraintSense.eq
    · simp only [encodeAccum, hs] at h
      rw [if_neg (by simp)] at h
      rw [ih _ _ (fun c' hc' => hfeas c' (List.mem_cons_of_mem c hc')) h]
      rw [evalTriple_penalizeConstraint]
      have hc : evalMap c.linear a = c.rhs := hfeas c (List.mem_cons_self c rest)
      rw [hc]
      ring
    · simp only [encodeAccum] at h
      rw [if_pos (by simp [hs])] at h
      exact absurd h (by simp)

/-! ### Encode-level helpers -/

theorem encode_fst (st : EncState) (op : QuadraticProgram) :
    (LinearEqualityToPenalty.encode st op).fst = { st with src := some op } := by
  simp only [LinearEqualityToPenalty.encode]
  cases encodeAccum op.objective.sense.value (penaltyUsed st op) op.linear_constraints
    (op.objective.constant, op.objective.linear, op.objective.quadratic) <;> rfl

theorem encode_ok_spec (st : EncState) (op : QuadraticProgram)
    (heq : ∀ c ∈ op.linear_constraints, c.sense = ConstraintSense.eq) :
    (LinearEqualityToPenalty.encode st op).snd = Except.ok
      { name := match st.dstName with
          | none => op.name
          | some n => n,
        vars := op.vars.map convertVariable,
        objective :=
          { constant := (op.linear_constraints.foldl
              (penalizeConstraint op.objective.sense.value (penaltyUsed st op))
              (op.objective.constant, op.objective.linear, op.objective.quadratic)).1,
            linear := (op.linear_constraints.foldl
              (penalizeConstraint op.objective.sense.value (penaltyUsed st op))
              (op.objective.constant, op.objective.linear, op.objective.quadratic)).2.1,
            quadratic := (op.linear_constraints.foldl
              (penalizeConstraint op.objective.sense.value (penaltyUsed st op))
              (op.objective.constant, op.objective.linear, op.objective.quadratic)).2.2,
            sense := op.objective.sense },
        linear_constraints := [],
        status := QuadraticProgramStatus.valid } := by
  have h := encodeAccum_ok_of_all_eq op.objective.sense.value (penaltyUsed st op)
    op.linear_constraints (op.objective.constant, op.objective.linear, op.objective.quadratic)
    heq
  simp only [LinearEqualityToPenalty.encode, h]

/-- C2: for every source problem, every penalty configuration, and every
assignment that satisfies every equality constraint of the source exactly,
the destination objective produced by a successful `encode` evaluates at
that assignment to the same value as the source objective. -/
theorem C2_encode_preserves_feasible_objective (st : EncState) (op : QuadraticProgram)
    (a : Nat → ℚ) (dst : QuadraticProgram)
    (hfeas : ∀ c ∈ op.linear_constraints, evalMap c.linear a = c.rhs)
    (hok : (LinearEqualityToPenalty.encode st op).snd = Except.ok dst) :
    evalObj dst.objective a = evalObj op.objective a := by
  rcases hE : encodeAccum op.objective.sense.value (penaltyUsed st op) op.linear_constraints
      (op.objective.constant, op.objective.linear, op.objective.quadratic) with e | acc
  · simp only [LinearEqualityToPenalty.encode, hE] at hok
    exact absurd hok (by simp)
  · simp only [LinearEqualityToPenalty.encode, hE] at hok
    injection hok with hok
    subst hok
    have h := encodeAccum_feasible_eval op.objective.sense.value (penaltyUsed st op) a
      op.linear_constraints (op.objective.constant, op.objective.linear, op.objective.quadratic)
      acc hfeas hE
    simpa [evalObj, evalTriple] using h

/-- Witness for C2: the spec's concrete scenario (minimize `x0` subject to
`x0 = 1`, penalty 2) at the feasible assignment `x0 = 1`. -/
theorem C2_encode_preserves_feasible_objective_witness :
    (∀ c ∈ exP.linear_constraints, evalMap c.linear (fun _ => 1) = c.rhs) ∧
    evalObj exDst.objective (fun _ => 1) = evalObj exP.objective (fun _ => 1) := by
  have hfeas : ∀ c ∈ exP.linear_constraints, evalMap c.linear (fun _ => 1) = c.rhs := by
    norm_num [exP, evalMap]
  have hok : (LinearEqualityToPenalty.encode exSt exP).snd = Except.ok exDst := by
    norm_num [LinearEqualityToPenalty.encode, penaltyUsed, exSt, exP, exX0, exDst,
      encodeAccum, penalizeConstraint, addLinearPenalty, addQuadPenalty, addQuadOne,
      dset, dget, convertVariable, ObjSense.value]
  exact ⟨hfeas, C2_encode_preserves_feasible_objective exSt exP (fun _ => 1) exDst hfeas hok⟩

/-! ### Pointwise accumulation lemmas -/

theorem dget_addLinearPenalty (s p C : ℚ) :
    ∀ (row : LinMap), KeysNodup row →
      ∀ (lin : LinMap) (j : Nat), dget (addLinearPenalty s p C row lin) j =
        dget lin j + s * p * (-2) * dget row j * C := by
  intro row
  induction row with
  | nil =>
    intro _ lin j
    simp [addLinearPenalty, dget]
  | cons kc rest ih =>
    intro hnd lin j
    obtain ⟨k₀, c₀⟩ := kc
    obtain ⟨hk₀, hrest⟩ := List.nodup_cons.mp hnd
    simp only [addLinearPenalty, List.foldl_cons] at ih ⊢
    rw [ih hrest]
    by_cases hj : j = k₀
    · subst hj
      rw [dget_dset_self, dget_eq_zero_of_not_mem rest j hk₀]
      simp [dget]
    · rw [dget_dset_ne _ _ _ _ (fun hh => hj hh.symm)]
      simp [dget, Ne.symm hj]

theorem dget_addQuadOne (s p : ℚ) (j₀ : Nat) (c₀ : ℚ) :
    ∀ (row : LinMap), KeysNodup row →
      ∀ (q : QuadMap) (ab : Nat × Nat),
        dget (addQuadOne s p j₀ c₀ row q) ab =
          dget q ab + (if j₀ = ab.1 then s * p * c₀ * dget row ab.2 else 0) := by
  intro row
  induction row with
  | nil =>
    intro _ q ab
    simp [addQuadOne, dget]
  | cons kc rest ih =>
    intro hnd q ab
    obtain ⟨k₀, v₀⟩ := kc
    obtain ⟨A, B⟩ := ab
    obtain ⟨hk₀, hrest⟩ := List.nodup_cons.mp hnd
    simp only [addQuadOne, List.foldl_cons] at ih ⊢
    rw [ih hrest]
    by_cases hA : j₀ = A
    · subst hA
      by_cases hB : k₀ = B
      · subst hB
        rw [dget_dset_self, dget_eq_zero_of_not_mem rest k₀ hk₀]
        simp [dget]
      · rw [dget_dset_ne _ _ _ _ (show (j₀, k₀) ≠ (j₀, B) from by simp [hB])]
        simp [dget, hB]
    · rw [dget_dset_ne _ _ _ _ (show (j₀, k₀) ≠ (A, B) from by simp [hA])]
      simp [hA]

theorem dget_addQuadFold (s p : ℚ) (row : LinMap) (hrow : KeysNodup row) :
    ∀ (outer : LinMap), KeysNodup outer →
      ∀ (q : QuadMap) (ab : Nat × Nat),
        dget (outer.foldl (fun q jc => addQuadOne s p jc.1 jc.2 row q) q) ab =
          dget q ab + s * p * dget outer ab.1 * dget row ab.2 := by
  intro outer
  induction outer with
  | nil =>
    intro _ q ab
    simp [dget]
  | cons jc rest ih =>
    intro hnd q ab
    obtain ⟨j₀, c₀⟩ := jc
    obtain ⟨A, B⟩ := ab
    obtain ⟨hj₀, hrest⟩ := List.nodup_cons.mp hnd
    simp only [List.foldl_cons] at ih ⊢
    rw [ih hrest, dget_addQuadOne s p j₀ c₀ row hrow]
    by_cases hA : j₀ = A
    · subst hA
      rw [dget_eq_zero_of_not_mem rest j₀ hj₀]
      simp [dget]
    · simp [dget, hA, Ne.symm hA]

theorem dget_addQuadPenalty (s p : ℚ) (row : LinMap) (hrow : KeysNodup row)
    (q : QuadMap) (ab : Nat × Nat) :
    dget (addQuadPenalty s p row q) ab =
      dget q ab + s * p * dget row ab.1 * dget row ab.2 := by
  simp only [addQuadPenalty]
  exact dget_addQuadFold s p row hrow row hrow q ab

theorem penalizeConstraint_fst (s p : ℚ) (acc : ℚ × LinMap × QuadMap) (c : LinearConstraint) :
    (penalizeConstraint s p acc c).1 = acc.1 + s * p * c.rhs ^ 2 := rfl

theorem penalizeConstraint_linear (s p : ℚ) (acc : ℚ × LinMap × QuadMap) (c : LinearConstraint) :
    (penalizeConstraint s p acc c).2.1 = addLinearPenalty s p c.rhs c.linear acc.2.1 := rfl

theorem penalizeConstraint_quadratic (s p : ℚ) (acc : ℚ × LinMap × QuadMap) (c : LinearConstraint) :
    (penalizeConstraint s p acc c).2.2 = addQuadPenalty s p c.linear acc.2.2 := rfl

theorem foldl_penalize_offset (s p : ℚ) :
    ∀ (cs : List LinearConstraint) (acc : ℚ × LinMap × QuadMap),
      (cs.foldl (penalizeConstraint s p) acc).1 =
        acc.1 + (cs.map (fun c => s * p * c.rhs ^ 2)).sum := by
  intro cs
  induction cs with
  | nil =>
    intro acc
    simp
  | cons c rest ih =>
    intro acc
    rw [List.foldl_cons, ih, penalizeConstraint_fst, List.map_cons, List.sum_cons]
    ring

theorem foldl_penalize_linear (s p : ℚ) :
    ∀ (cs : List LinearConstraint), (∀ c ∈ cs, KeysNodup c.linear) →
      ∀ (acc : ℚ × LinMap × QuadMap) (j : Nat),
        dget (cs.foldl (penalizeConstraint s p) acc).2.1 j =
          dget acc.2.1 j +
            (cs.map (fun c => s * p * (-2) * dget c.linear j * c.rhs)).sum := by
  intro cs
  induction cs with
  | nil =>
    intro _ acc j
    simp
  | cons c rest ih =>
    intro hnd acc j
    have hc : KeysNodup c.linear := hnd c (List.mem_cons_self c rest)
    rw [List.foldl_cons, ih (fun c' hc' => hnd c' (List.mem_cons_of_mem c hc')),
      penalizeConstraint_linear, dget_addLinearPenalty s p c.rhs c.linear hc,
      List.map_cons, List.sum_cons]
    ring

theorem foldl_penalize_quadratic (s p : ℚ) :
    ∀ (cs : List LinearConstraint), (∀ c ∈ cs, KeysNodup c.linear) →
      ∀ (acc : ℚ × LinMap × QuadMap) (ab : Nat × Nat),
        dget (cs.foldl (penalizeConstraint s p) acc).2.2 ab =
          dget acc.2.2 ab +
            (cs.map (fun c => s * p * dget c.linear ab.1 * dget c.linear ab.2)).sum := by
  intro cs
  induction cs with
  | nil =>
    intro _ acc ab
    simp
  | cons c rest ih =>
    intro hnd acc ab
    have hc : KeysNodup c.linear := hnd c (List.mem_cons_self c rest)
    rw [List.foldl_cons, ih (fun c' hc' => hnd c' (List.mem_cons_of_mem c hc')),
      penalizeConstraint_quadratic, dget_addQuadPenalty s p c.linear hc,
      List.map_cons, List.sum_cons]
    ring

/-- C1: for an all-equality source problem, a successful `encode` produces a
destination objective obtained from (copies of) the source objective maps by
adding, per constraint with right-hand side `C` and row `row`, exactly
`sign * penalty * C^2` to the offset, `sign * penalty * (-2) * row j * C` to
each linear coefficient, and `sign * penalty * row j * row k` to each ordered
pair coefficient, where `sign` is +1 for a Minimize source and -1 for a
Maximize source, fixed once per call. Pre-existing coefficients for the same
keys are added to, never replaced. -/
theorem C1_encode_constraint_expansion (st : EncState) (op : QuadraticProgram)
    (hnd : ∀ c ∈ op.linear_constraints, KeysNodup c.linear)
    (heq : ∀ c ∈ op.linear_constraints, c.sense = ConstraintSense.eq) :
    ∃ dst, (LinearEqualityToPenalty.encode st op).snd = Except.ok dst ∧
      dst.objective.constant = op.objective.constant +
        (op.linear_constraints.map (fun c =>
          (if op.objective.sense = ObjSense.minimize then (1 : ℚ) else -1) *
            penaltyUsed st op * c.rhs ^ 2)).sum ∧
      (∀ j : Nat, dget dst.objective.linear j = dget op.objective.linear j +
        (op.linear_constraints.map (fun c =>
          (if op.objective.sense = ObjSense.minimize then (1 : ℚ) else -1) *
            penaltyUsed st op * (-2) * dget c.linear j * c.rhs)).sum) ∧
      (∀ jk : Nat × Nat, dget dst.objective.quadratic jk = dget op.objective.quadratic jk +
        (op.linear_constraints.map (fun c =>
          (if op.objective.sense = ObjSense.minimize then (1 : ℚ) else -1) *
            penaltyUsed st op * dget c.linear jk.1 * dget c.linear jk.2)).sum) := by
  have hv : op.objective.sense.value =
      if op.objective.sense = ObjSense.minimize then (1 : ℚ) else -1 := by
    cases op.objective.sense <;> simp [ObjSense.value]
  refine ⟨_, encode_ok_spec st op heq, ?_, ?_, ?_⟩
  · dsimp only
    rw [foldl_penalize_offset, hv]
  · intro j
    dsimp only
    rw [foldl_penalize_linear op.objective.sense.value (penaltyUsed st op)
      op.linear_constraints hnd, hv]
  · intro jk
    dsimp only
    rw [foldl_penalize_quadratic op.objective.sense.value (penaltyUsed st op)
      op.linear_constraints hnd, hv]

/-- Witness for C1: the spec's concrete scenario — minimize `x0` subject to
`x0 = 1` with penalty 2 yields offset 2, linear coefficient -3 and quadratic
coefficient 2 for `(x0, x0)`. -/
theorem C1_encode_constraint_expansion_witness :
    ∃ dst, (LinearEqualityToPenalty.encode exSt exP).snd = Except.ok dst ∧
      dst.objective.constant = 2 ∧ dget dst.objective.linear 0 = -3 ∧
      dget dst.objective.quadratic (0, 0) = 2 := by
  obtain ⟨dst, hok, hconst, hlin, hquad⟩ :=
    C1_encode_constraint_expansion exSt exP (by decide) (by decide)
  refine ⟨dst, hok, ?_, ?_, ?_⟩
  · rw [hconst]
    norm_num [exP, exSt, penaltyUsed, dget]
  · rw [hlin 0]
    norm_num [exP, exSt, penaltyUsed, dget]
  · rw [hquad (0, 0)]
    norm_num [exP, exSt, penaltyUsed, dget]

/-- C3: when no penalty is supplied, the automatic penalty is the fixed
default 1e5 as soon as some constraint right-hand side or row coefficient is
non-integral (only a log advisory, no exception: the function is total and
returns normally); otherwise it is the numerically exact sum of 1.0 plus the
absolute values of every linear and every quadratic objective coefficient
(the code sums with `math.fsum`; over exact rationals the sum is
order-independent). -/
theorem C3_auto_penalty_characterization (src : QuadraticProgram) :
    ((∃ t ∈ constraintTerms src, t.den ≠ 1) → autoDefinePenalty src = 100000) ∧
    ((∀ t ∈ constraintTerms src, t.den = 1) →
      autoDefinePenalty src =
        1 + (src.objective.linear.map (fun p => |p.2|)).sum
          + (src.objective.quadratic.map (fun p => |p.2|)).sum) := by
  constructor
  · intro h
    have hcond : (constraintTerms src).any (fun t => t.den != 1) = true := by
      rw [List.any_eq_true]
      obtain ⟨t, ht, hden⟩ := h
      exact ⟨t, ht, by simpa using hden⟩
    simp [autoDefinePenalty, hcond]
  · intro h
    have hcond : (constraintTerms src).any (fun t => t.den != 1) = false := by
      rw [List.any_eq_false]
      intro t ht
      simp [h t ht]
    simp only [autoDefinePenalty, hcond, Bool.false_eq_true, if_false]
    rw [List.sum_append, List.sum_append, List.sum_cons, List.sum_nil]
    ring

/-- Witness for C3: the fractional fixture gets the default 1e5; the spec's
concrete scenario gets 1 + 1 = 2, matching the spec's stated auto penalty. -/
theorem C3_auto_penalty_characterization_witness :
    ((∃ t ∈ constraintTerms exPfrac, t.den ≠ 1) ∧ autoDefinePenalty exPfrac = 100000) ∧
    ((∀ t ∈ constraintTerms exP, t.den = 1) ∧ autoDefinePenalty exP = 2) := by
  have h1 : ∃ t ∈ constraintTerms exPfrac, t.den ≠ 1 := by
    refine ⟨1 / 2, ?_, by norm_num⟩
    norm_num [constraintTerms, exPfrac]
  have h2 : ∀ t ∈ constraintTerms exP, t.den = 1 := by
    norm_num [constraintTerms, exP]
  refine ⟨⟨h1, (C3_auto_penalty_characterization exPfrac).1 h1⟩,
          ⟨h2, ?_⟩⟩
  rw [(C3_auto_penalty_characterization exP).2 h2]
  norm_num [exP]

/-- C10: the automatically computed penalty is always at least 1 (hence
strictly positive): it is either the default 1e5 or a sum of 1.0 and
absolute values. -/
theorem C10_auto_penalty_ge_one (src : QuadraticProgram) :
    1 ≤ autoDefinePenalty src := by
  simp only [autoDefinePenalty]
  by_cases hcond : (constraintTerms src).any (fun t => t.den != 1) = true
  · rw [if_pos hcond]
    norm_num
  · rw [if_neg hcond]
    rw [List.sum_append, List.sum_append, List.sum_cons, List.sum_nil]
    have h1 : 0 ≤ (src.objective.linear.map (fun p => |p.2|)).sum :=
      List.sum_nonneg (by
        intro x hx
        obtain ⟨p, _, hp⟩ := List.mem_map.mp hx
        rw [← hp]
        exact abs_nonneg _)
    have h2 : 0 ≤ (src.objective.quadratic.map (fun p => |p.2|)).sum :=
      List.sum_nonneg (by
        intro x hx
        obtain ⟨p, _, hp⟩ := List.mem_map.mp hx
        rw [← hp]
        exact abs_nonneg _)
    linarith

/-- C4: `encode` fails (raising the inequality-constraint error) exactly when
some constraint's sense is not Equal; on failure no destination problem is
returned (the destination objective is only assembled after the whole
constraint loop has run), so a caller never observes a partially accumulated
destination. -/
theorem C4_encode_error_iff_non_equality (st : EncState) (op : QuadraticProgram) :
    (∃ e, (LinearEqualityToPenalty.encode st op).snd = Except.error e) ↔
      ∃ c ∈ op.linear_constraints, c.sense ≠ ConstraintSense.eq := by
  rw [← encodeAccum_error_iff op.objective.sense.value (penaltyUsed st op)
    op.linear_constraints (op.objective.constant, op.objective.linear, op.objective.quadratic)]
  constructor
  · rintro ⟨e, he⟩
    rcases hE : encodeAccum op.objective.sense.value (penaltyUsed st op) op.linear_constraints
        (op.objective.constant, op.objective.linear, op.objective.quadratic) with e' | acc
    · exact ⟨e', rfl⟩
    · simp only [LinearEqualityToPenalty.encode, hE] at he
      exact absurd he (by simp)
  · rintro ⟨e, he⟩
    refine ⟨e, ?_⟩
    simp only [LinearEqualityToPenalty.encode, he]

/-- Counterexample to C5 as stated: calling `encode` with no configured
penalty on the spec's concrete scenario uses the auto-computed penalty 2,
yet the instance's stored penalty afterwards is still `none` — the penalty
actually used is not stored. -/
theorem C5_encode_auto_penalty_not_stored_cex :
    penaltyUsed exStAuto exP = 2 ∧
    (LinearEqualityToPenalty.encode exStAuto exP).fst.penalty = none ∧
    (LinearEqualityToPenalty.encode exStAuto exP).fst.penalty ≠
      some (penaltyUsed exStAuto exP) := by
  have h1 : penaltyUsed exStAuto exP = 2 := by
    norm_num [penaltyUsed, exStAuto, autoDefinePenalty, constraintTerms, exP, exX0]
  have h2 : (LinearEqualityToPenalty.encode exStAuto exP).fst.penalty = none := by
    rw [encode_fst]
    rfl
  refine ⟨h1, h2, ?_⟩
  rw [h2]
  simp

/-- C5 (amended): each `encode` call stores the deep-copied source problem on
the instance, replacing any previously stored snapshot, and leaves the
configured penalty field unchanged — in particular an auto-computed penalty
is not stored back. (The caller's problem is never mutated: the snapshot is
the argument's value.) -/
theorem C5_encode_state_update (st : EncState) (op : QuadraticProgram) :
    (LinearEqualityToPenalty.encode st op).fst.src = some op ∧
    (LinearEqualityToPenalty.encode st op).fst.penalty = st.penalty ∧
    (LinearEqualityToPenalty.encode st op).fst.dstName = st.dstName := by
  rw [encode_fst]
  exact ⟨rfl, rfl, rfl⟩

theorem convertVariable_id (x : Variable)
    (hb : x.vartype = VarType.binary → x.lowerbound = 0 ∧ x.upperbound = 1) :
    convertVariable x = x := by
  obtain ⟨n, t, lb, ub⟩ := x
  cases t
  · rfl
  · obtain ⟨h1, h2⟩ := hb rfl
    simp only at h1 h2
    subst h1
    subst h2
    rfl
  · rfl

/-- C6: for an all-equality source whose binary variables carry the implicit
bounds [0, 1], the problem returned by `encode` has the same variables
(same count, order, kinds and bounds), zero constraints, and an objective
with the source's sense. -/
theorem C6_encode_preserves_structure (st : EncState) (op : QuadraticProgram)
    (hb : ∀ x ∈ op.vars, x.vartype = VarType.binary → x.lowerbound = 0 ∧ x.upperbound = 1)
    (heq : ∀ c ∈ op.linear_constraints, c.sense = ConstraintSense.eq) :
    ∃ dst, (LinearEqualityToPenalty.encode st op).snd = Except.ok dst ∧
      dst.vars = op.vars ∧ dst.linear_constraints = [] ∧
      dst.objective.sense = op.objective.sense := by
  refine ⟨_, encode_ok_spec st op heq, ?_, rfl, rfl⟩
  dsimp only
  calc op.vars.map convertVariable
      = op.vars.map id := List.map_congr_left (fun x hx => convertVariable_id x (hb x hx))
    _ = op.vars := List.map_id _

/-- Witness for C6 at the spec's concrete scenario. -/
theorem C6_encode_preserves_structure_witness :
    (∀ x ∈ exP.vars, x.vartype = VarType.binary → x.lowerbound = 0 ∧ x.upperbound = 1) ∧
    (∀ c ∈ exP.linear_constraints, c.sense = ConstraintSense.eq) ∧
    ∃ dst, (LinearEqualityToPenalty.encode exSt exP).snd = Except.ok dst ∧
      dst.vars = exP.vars ∧ dst.linear_constraints = [] ∧
      dst.objective.sense = exP.objective.sense := by
  refine ⟨?_, ?_, C6_encode_preserves_structure exSt exP (by decide) (by decide)⟩
  · decide
  · decide

/-- C7: on a result whose value count matches the retained source's variable
count, `decode` returns a new result with the same `x`, with `fval` the
objective constant of the problem obtained by substituting the assignment
into the retained source (which equals the source objective evaluated at the
assignment), and with status Success exactly when the substituted problem's
status is Valid, Infeasible otherwise. -/
theorem C7_decode_characterization (st : EncState) (src : QuadraticProgram)
    (result : OptimizationResult)
    (hsrc : st.src = some src)
    (hlen : result.x.length = src.vars.length) :
    LinearEqualityToPenalty.decode st result = Except.ok
      { x := result.x,
        fval := (substituteVariables src (fun i => result.x.getD i 0)).objective.constant,
        status :=
          if (substituteVariables src (fun i => result.x.getD i 0)).status =
              QuadraticProgramStatus.valid
          then OptimizationResultStatus.success
          else OptimizationResultStatus.infeasible } ∧
    (substituteVariables src (fun i => result.x.getD i 0)).objective.constant =
      evalObj src.objective (fun i => result.x.getD i 0) := by
  constructor
  · simp only [LinearEqualityToPenalty.decode, hsrc, LinearEqualityToPenalty.decodeAgainst]
    rw [if_neg (by simp [hlen])]
  · rfl

/-- Witness for C7: decoding the assignment `x0 = 1` against the retained
`exP` recomputes `fval = 1` and classifies the result a Success. -/
theorem C7_decode_characterization_witness :
    LinearEqualityToPenalty.decode { src := some exP, penalty := some 2, dstName := none }
        exResult = Except.ok
      { x := [1], fval := 1, status := OptimizationResultStatus.success } := by
  obtain ⟨h1, h2⟩ := C7_decode_characterization
    { src := some exP, penalty := some 2, dstName := none } exP exResult rfl (by decide)
  rw [h1]
  norm_num [substituteVariables, exP, exResult, evalObj, evalMap, pairWeight,
    LinearConstraint.satisfiedB, exX0]

/-- C8: `decode` fails exactly when the number of values in the result
differs from the retained source's variable count; on failure no result is
returned at all. -/
theorem C8_decode_error_iff_dimension_mismatch (st : EncState) (src : QuadraticProgram)
    (result : OptimizationResult) (hsrc : st.src = some src) :
    (∃ e, LinearEqualityToPenalty.decode st result = Except.error e) ↔
      result.x.length ≠ src.vars.length := by
  simp only [LinearEqualityToPenalty.decode, hsrc, LinearEqualityToPenalty.decodeAgainst]
  by_cases h : result.x.length = src.vars.length
  · rw [if_neg (by simp [h])]
    simp [h]
  · rw [if_pos h]
    simp [h]

/-- Witness for C8: a two-value result against the one-variable retained
source is rejected. -/
theorem C8_decode_error_iff_dimension_mismatch_witness :
    ({ src := some exP, penalty := some 2, dstName := none } : EncState).src = some exP ∧
    ((∃ e, LinearEqualityToPenalty.decode
        { src := some exP, penalty := some 2, dstName := none }
        { x := [1, 2], fval := 0, status := OptimizationResultStatus.success } =
          Except.error e) ↔
      ({ x := ([1, 2] : List ℚ), fval := 0,
         status := OptimizationResultStatus.success } : OptimizationResult).x.length ≠
        exP.vars.length) :=
  ⟨rfl, C8_decode_error_iff_dimension_mismatch _ exP _ rfl⟩

/-- C9: `encode` overwrites the retained snapshot with (a copy of) its
argument before any validation runs, for every state and every argument —
including arguments it subsequently rejects — so after a failed `encode`
the previous successful snapshot is gone and a later `decode` operates
against the rejected problem's snapshot. -/
theorem C9_encode_overwrites_snapshot (st : EncState) (op : QuadraticProgram)
    (r : OptimizationResult) :
    (LinearEqualityToPenalty.encode st op).fst.src = some op ∧
    LinearEqualityToPenalty.decode (LinearEqualityToPenalty.encode st op).fst r =
      LinearEqualityToPenalty.decodeAgainst op r := by
  rw [encode_fst]
  exact ⟨rfl, rfl⟩
